import Mathlib

set_option maxHeartbeats 1000000

/-!
Verification development for the H.264 TCP source of the client SDK
(`h264_tcp_source.h` / `h264_tcp_source.cc`, namespace `publish_h264`).

The worker loop of `H264TcpSource` is embedded shallowly:

* bytes are `Nat` (the C++ code reads `std::uint8_t`; no arithmetic here
  can overflow, the only bit operation is `& 0x1f` on a single byte and
  the big-endian 32-bit length decode, both reproduced verbatim on `Nat`);
* the socket is replaced by the list of bytes (resp. the list of chunks)
  that the sequence of successful `recv` calls returns; a `recv` that
  returns `<= 0` is the end of that list;
* `std::vector<std::uint8_t>` buffers are `List Nat`;
* the callback is replaced by the list of access units passed to it, in
  order; the wall-clock `timestamp_us` field is outside the model (no
  claim mentions it).
-/

/-- `buf[i]` for an in-bounds index; the C++ code never reads out of
bounds, every use below is guarded by the same length tests as the source. -/
def byteAt (buf : List Nat) (i : Nat) : Nat := buf.getD i 0

/-- `struct StartCode { std::size_t offset; std::size_t size; }`. -/
structure StartCode where
  offset : Nat
  size : Nat
deriving DecidableEq, Repr

/-- `constexpr std::size_t kMaxNalSize = 4 * 1024 * 1024;` -/
def kMaxNalSize : Nat := 4 * 1024 * 1024

/-- `isVclNal`: first payload byte `& 0x1f` is 1 or 5; false when empty
(`size < 1`). -/
def isVclNal (nal : List Nat) : Bool :=
  match nal with
  | [] => false
  | b :: _ => decide (b &&& 31 = 1 ∨ b &&& 31 = 5)

/-- `isIdrNal`: first payload byte `& 0x1f` is 5; false when empty. -/
def isIdrNal (nal : List Nat) : Bool :=
  match nal with
  | [] => false
  | b :: _ => decide (b &&& 31 = 5)

/-- The body of one iteration of the scanning loop of `findStartCode`:
at position `i`, a 3-byte code `00 00 01`, else a 4-byte code
`00 00 00 01` (the latter only if one byte beyond it exists,
`i + 4 < buf.size()`), else no match at `i`. -/
def scTest (buf : List Nat) (i : Nat) : Option StartCode :=
  if byteAt buf i = 0 ∧ byteAt buf (i + 1) = 0 then
    if byteAt buf (i + 2) = 1 then some ⟨i, 3⟩
    else if i + 4 < buf.length ∧ byteAt buf (i + 2) = 0 ∧ byteAt buf (i + 3) = 1 then
      some ⟨i, 4⟩
    else none
  else none

/-- `findStartCode(buf, start, out)`: the C++ `for` loop runs `i` from
`start` while `i + 3 < buf.size()` and returns the first match of
`scTest`; the index range is exactly `[start, buf.length - 4]`. -/
def findStartCode (buf : List Nat) (start : Nat) : Option StartCode :=
  (List.range' start (buf.length - 3 - start)).findSome? (scTest buf)

/-- One-step unfolding of the scanning loop. -/
theorem findStartCode_step (buf : List Nat) (start : Nat) :
    findStartCode buf start =
      if start + 3 < buf.length then
        match scTest buf start with
        | some sc => some sc
        | none => findStartCode buf (start + 1)
      else none := by
  unfold findStartCode
  by_cases h : start + 3 < buf.length
  · have hlen : buf.length - 3 - start = (buf.length - 3 - (start + 1)) + 1 := by omega
    rw [hlen, List.range'_succ, List.findSome?_cons]
    simp only [if_pos h]
    cases scTest buf start <;> rfl
  · have hlen : buf.length - 3 - start = 0 := by omega
    rw [hlen]
    simp [h]

/-- Basic facts about a successful `findStartCode`: the code lies at or
after the scan start, is fully inside the buffer with at least one byte
after a 3-byte view, has size 3 or 4 (size 4 only with a byte after it),
and re-testing the returned offset reproduces the same code. -/
theorem findStartCode_spec :
    ∀ n buf start sc, buf.length - start ≤ n →
      findStartCode buf start = some sc →
      start ≤ sc.offset ∧ sc.offset + 3 < buf.length ∧
        (sc.size = 3 ∨ (sc.size = 4 ∧ sc.offset + 4 < buf.length)) ∧
        scTest buf sc.offset = some sc := by
  intro n
  induction n with
  | zero =>
    intro buf start sc hn h
    rw [findStartCode_step] at h
    have : ¬ start + 3 < buf.length := by omega
    simp [this] at h
  | succ n ih =>
    intro buf start sc hn h
    rw [findStartCode_step] at h
    by_cases hlt : start + 3 < buf.length
    · simp only [if_pos hlt] at h
      cases htest : scTest buf start with
      | some sc' =>
        rw [htest] at h
        cases h
        unfold scTest at htest
        by_cases h00 : byteAt buf start = 0 ∧ byteAt buf (start + 1) = 0
        · simp only [if_pos h00] at htest
          by_cases h1 : byteAt buf (start + 2) = 1
          · simp only [if_pos h1] at htest
            cases htest
            refine ⟨Nat.le_refl _, hlt, Or.inl rfl, ?_⟩
            unfold scTest
            simp [h00, h1]
          · simp only [if_neg h1] at htest
            by_cases h4 : start + 4 < buf.length ∧ byteAt buf (start + 2) = 0 ∧
                byteAt buf (start + 3) = 1
            · simp only [if_pos h4] at htest
              cases htest
              refine ⟨Nat.le_refl _, hlt, Or.inr ⟨rfl, h4.1⟩, ?_⟩
              unfold scTest
              simp [h00, h1, h4]
            · simp [h4] at htest
        · simp [h00] at htest
      | none =>
        rw [htest] at h
        have hrec := ih buf (start + 1) sc (by omega) h
        exact ⟨by omega, hrec.2.1, hrec.2.2⟩
    · simp [hlt] at h

/-- Re-scanning from the offset of a found start code finds that same
code again (used when the parse position is advanced to a code). -/
theorem findStartCode_refind (buf : List Nat) (start : Nat) (sc : StartCode)
    (h : findStartCode buf start = some sc) :
    findStartCode buf sc.offset = some sc := by
  have hs := findStartCode_spec (buf.length - start) buf start sc (Nat.le_refl _) h
  rw [findStartCode_step, if_pos hs.2.1, hs.2.2.2]

/-- Reading past a prefix of an appended buffer reads the suffix. -/
theorem byteAt_append_add (a b : List Nat) (k : Nat) :
    byteAt (a ++ b) (a.length + k) = byteAt b k := by
  unfold byteAt
  rw [List.getD_append_right a b 0 _ (by omega)]
  congr 1
  omega

/-- Reading inside the first part of an appended buffer. -/
theorem byteAt_append_left (a b : List Nat) (k : Nat) (h : k < a.length) :
    byteAt (a ++ b) k = byteAt a k := List.getD_append a b 0 k h

/-- The per-position test translated across a dropped/added prefix. -/
theorem scTest_shift (a b : List Nat) (i : Nat) :
    scTest (a ++ b) (a.length + i) =
      (scTest b i).map (fun sc => ⟨a.length + sc.offset, sc.size⟩) := by
  have e0 : byteAt (a ++ b) (a.length + i) = byteAt b i := byteAt_append_add a b i
  have e1 : byteAt (a ++ b) (a.length + i + 1) = byteAt b (i + 1) := by
    rw [show a.length + i + 1 = a.length + (i + 1) by omega, byteAt_append_add]
  have e2 : byteAt (a ++ b) (a.length + i + 2) = byteAt b (i + 2) := by
    rw [show a.length + i + 2 = a.length + (i + 2) by omega, byteAt_append_add]
  have e3 : byteAt (a ++ b) (a.length + i + 3) = byteAt b (i + 3) := by
    rw [show a.length + i + 3 = a.length + (i + 3) by omega, byteAt_append_add]
  have elen : (a.length + i + 4 < (a ++ b).length) = (i + 4 < b.length) := by
    simp only [List.length_append]
    exact propext (by omega)
  unfold scTest
  rw [e0, e1, e2, e3]
  simp only [elen]
  by_cases h00 : byteAt b i = 0 ∧ byteAt b (i + 1) = 0
  · simp only [if_pos h00]
    by_cases h1 : byteAt b (i + 2) = 1
    · simp [h1]
    · simp only [if_neg h1]
      by_cases h4 : i + 4 < b.length ∧ byteAt b (i + 2) = 0 ∧ byteAt b (i + 3) = 1
      · simp [h4]
      · simp [h4]
  · simp [h00]

/-- Scanning an appended buffer past the first part is the scan of the
second part with all offsets shifted. -/
theorem findStartCode_shift :
    ∀ n a b i, b.length - i ≤ n →
      findStartCode (a ++ b) (a.length + i) =
        (findStartCode b i).map (fun sc => ⟨a.length + sc.offset, sc.size⟩) := by
  intro n
  induction n with
  | zero =>
    intro a b i hn
    have h1 : ¬ i + 3 < b.length := by omega
    have h2 : ¬ a.length + i + 3 < (a ++ b).length := by
      simp only [List.length_append]; omega
    rw [findStartCode_step (a ++ b), if_neg h2, findStartCode_step b, if_neg h1]
    rfl
  | succ n ih =>
    intro a b i hn
    by_cases hc : i + 3 < b.length
    · have hc' : a.length + i + 3 < (a ++ b).length := by
        simp only [List.length_append]; omega
      rw [findStartCode_step (a ++ b), if_pos hc', findStartCode_step b, if_pos hc,
        scTest_shift]
      cases htest : scTest b i with
      | some sc => rfl
      | none =>
        rw [show a.length + i + 1 = a.length + (i + 1) by omega]
        exact ih a b (i + 1) (by omega)
    · have hc' : ¬ a.length + i + 3 < (a ++ b).length := by
        simp only [List.length_append]; omega
      rw [findStartCode_step (a ++ b), if_neg hc', findStartCode_step b, if_neg hc]
      rfl

/-- A per-position match inside the buffer survives appending bytes. -/
theorem scTest_append_of_some (buf ext : List Nat) (j : Nat) (sc : StartCode)
    (h3 : j + 3 < buf.length) (h : scTest buf j = some sc) :
    scTest (buf ++ ext) j = some sc := by
  have e0 : byteAt (buf ++ ext) j = byteAt buf j := byteAt_append_left _ _ _ (by omega)
  have e1 : byteAt (buf ++ ext) (j + 1) = byteAt buf (j + 1) :=
    byteAt_append_left _ _ _ (by omega)
  have e2 : byteAt (buf ++ ext) (j + 2) = byteAt buf (j + 2) :=
    byteAt_append_left _ _ _ (by omega)
  have e3 : byteAt (buf ++ ext) (j + 3) = byteAt buf (j + 3) :=
    byteAt_append_left _ _ _ (by omega)
  unfold scTest at h ⊢
  rw [e0, e1, e2, e3]
  by_cases h00 : byteAt buf j = 0 ∧ byteAt buf (j + 1) = 0
  · simp only [if_pos h00] at h ⊢
    by_cases h1 : byteAt buf (j + 2) = 1
    · simpa [h1] using h
    · simp only [if_neg h1] at h ⊢
      by_cases h4 : j + 4 < buf.length ∧ byteAt buf (j + 2) = 0 ∧ byteAt buf (j + 3) = 1
      · have h4' : j + 4 < (buf ++ ext).length ∧ byteAt buf (j + 2) = 0 ∧
            byteAt buf (j + 3) = 1 := by
          refine ⟨?_, h4.2⟩
          simp only [List.length_append]; omega
        simp only [if_pos h4] at h
        simp only [if_pos h4']
        exact h
      · simp [h4] at h
  · simp [h00] at h

/-- A per-position non-match stays a non-match after appending bytes,
unless the failure was only for lack of a byte after a would-be 4-byte
code at the very end of the buffer. -/
theorem scTest_append_of_none (buf ext : List Nat) (j : Nat)
    (h3 : j + 3 < buf.length) (h : scTest buf j = none) :
    scTest (buf ++ ext) j = none ∨ ¬ j + 4 < buf.length := by
  by_cases h5 : j + 4 < buf.length
  · left
    have e0 : byteAt (buf ++ ext) j = byteAt buf j := byteAt_append_left _ _ _ (by omega)
    have e1 : byteAt (buf ++ ext) (j + 1) = byteAt buf (j + 1) :=
      byteAt_append_left _ _ _ (by omega)
    have e2 : byteAt (buf ++ ext) (j + 2) = byteAt buf (j + 2) :=
      byteAt_append_left _ _ _ (by omega)
    have e3 : byteAt (buf ++ ext) (j + 3) = byteAt buf (j + 3) :=
      byteAt_append_left _ _ _ (by omega)
    unfold scTest at h ⊢
    rw [e0, e1, e2, e3]
    by_cases h00 : byteAt buf j = 0 ∧ byteAt buf (j + 1) = 0
    · simp only [if_pos h00] at h ⊢
      by_cases h1 : byteAt buf (j + 2) = 1
      · simp [h1] at h
      · simp only [if_neg h1] at h ⊢
        by_cases h4 : j + 4 < buf.length ∧ byteAt buf (j + 2) = 0 ∧ byteAt buf (j + 3) = 1
        · simp [h4] at h
        · have h4' : ¬ (j + 4 < (buf ++ ext).length ∧ byteAt buf (j + 2) = 0 ∧
              byteAt buf (j + 3) = 1) := by
            intro hcon
            exact h4 ⟨h5, hcon.2⟩
          rw [if_neg h4']
    · simp [h00]
  · right
    exact h5

/-- A start code found in the buffer is still the one found after more
bytes arrive: appending data never changes an already-found code. -/
theorem findStartCode_append :
    ∀ n buf ext start sc, buf.length - start ≤ n →
      findStartCode buf start = some sc →
      findStartCode (buf ++ ext) start = some sc := by
  intro n
  induction n with
  | zero =>
    intro buf ext start sc hn h
    rw [findStartCode_step] at h
    have : ¬ start + 3 < buf.length := by omega
    simp [this] at h
  | succ n ih =>
    intro buf ext start sc hn h
    rw [findStartCode_step] at h
    by_cases hlt : start + 3 < buf.length
    · have hlt' : start + 3 < (buf ++ ext).length := by
        simp only [List.length_append]; omega
      rw [findStartCode_step, if_pos hlt']
      simp only [if_pos hlt] at h
      cases htest : scTest buf start with
      | some sc' =>
        rw [htest] at h
        rw [scTest_append_of_some buf ext start sc' hlt htest]
        exact h
      | none =>
        rw [htest] at h
        rcases scTest_append_of_none buf ext start hlt htest with hnone | hshort
        · rw [hnone]
          exact ih buf ext (start + 1) sc (by omega) h
        · rw [findStartCode_step] at h
          have : ¬ start + 1 + 3 < buf.length := by omega
          simp [this] at h
    · simp [hlt] at h

/-- `static const std::uint8_t kStartCode[] = {0, 0, 0, 1};` -/
def kStartCode : List Nat := [0, 0, 0, 1]

/-- `struct H264AccessUnit` without the wall-clock `timestamp_us`. -/
structure AccessUnit where
  data : List Nat
  is_keyframe : Bool
deriving DecidableEq, Repr

/-- The assembler state captured by the `emit_access_unit` lambda:
`std::vector<std::uint8_t> access_unit; bool has_idr = false;`. -/
structure AsmState where
  access_unit : List Nat
  has_idr : Bool
deriving DecidableEq, Repr

/-- The state at the top of `loop()`: empty buffer, no IDR seen. -/
def asmInit : AsmState := ⟨[], false⟩

/-- The `emit_access_unit` lambda of `loop()`: append the canonical
start code and the NAL to the pending access unit, record an IDR, and
when the NAL is VCL hand the accumulated unit to the callback and reset. -/
def emit_access_unit (st : AsmState) (nal : List Nat) (is_vcl : Bool) :
    AsmState × Option AccessUnit :=
  let au := st.access_unit ++ kStartCode ++ nal
  let idr := st.has_idr || isIdrNal nal
  if is_vcl then
    (⟨[], false⟩, some ⟨au, idr⟩)
  else
    (⟨au, idr⟩, none)

/-- Feeding a sequence of NAL units to the assembler, collecting the
access units passed to the callback in order. Both framing branches of
`loop()` call `emit_access_unit(nal, isVclNal(nal))` for each NAL. -/
def assembleNals (st : AsmState) (nals : List (List Nat)) :
    AsmState × List AccessUnit :=
  match nals with
  | [] => (st, [])
  | nal :: rest =>
    let pr := emit_access_unit st nal (isVclNal nal)
    let r := assembleNals pr.1 rest
    (r.1, pr.2.toList ++ r.2)

/-- The inner `while (findStartCode(stream_buf, parse_pos, sc))` loop of
the Annex-B branch, including the trailing
`if (parse_pos > 0) stream_buf.erase(...)`. Returns the retained
`stream_buf`, the assembler state, and the emitted access units.
The leading-garbage branch erases the buffer head immediately and
rescans from 0; the pairing branch emits the NAL between two found codes
(only when non-empty) and advances `parse_pos` to the second code. -/
def annexBLoop (buf : List Nat) (parse_pos : Nat) (st : AsmState)
    (outs : List AccessUnit) : List Nat × AsmState × List AccessUnit :=
  match hsc : findStartCode buf parse_pos with
  | none => (if 0 < parse_pos then buf.drop parse_pos else buf, st, outs)
  | some sc =>
    if hg : parse_pos = 0 ∧ 0 < sc.offset then
      annexBLoop (buf.drop sc.offset) 0 st outs
    else
      match hsc2 : findStartCode buf (sc.offset + sc.size) with
      | none => (if 0 < parse_pos then buf.drop parse_pos else buf, st, outs)
      | some next_sc =>
        let nal_start := sc.offset + sc.size
        let nal_size := next_sc.offset - nal_start
        let pr :=
          if 0 < nal_size then
            let nal := (buf.drop nal_start).take nal_size
            emit_access_unit st nal (isVclNal nal)
          else (st, none)
        annexBLoop buf next_sc.offset pr.1 (outs ++ pr.2.toList)
termination_by buf.length - parse_pos
decreasing_by
  · have h := findStartCode_spec (buf.length - parse_pos) buf parse_pos sc
      (Nat.le_refl _) hsc
    simp only [List.length_drop]
    omega
  · have h1 := findStartCode_spec (buf.length - parse_pos) buf parse_pos sc
      (Nat.le_refl _) hsc
    have h2 := findStartCode_spec (buf.length - (sc.offset + sc.size)) buf
      (sc.offset + sc.size) next_sc (Nat.le_refl _) hsc2
    have hsz : 3 ≤ sc.size := by rcases h1.2.2.1 with h | h <;> omega
    omega

/-- Step equation: no start code from the parse position. -/
theorem annexBLoop_eq_none (buf : List Nat) (p : Nat) (st : AsmState)
    (outs : List AccessUnit) (h : findStartCode buf p = none) :
    annexBLoop buf p st outs = (if 0 < p then buf.drop p else buf, st, outs) := by
  rw [annexBLoop]
  split
  · rfl
  · next sc heq => rw [h] at heq; cases heq

/-- Step equation: leading bytes before the first start code are dropped. -/
theorem annexBLoop_eq_garbage (buf : List Nat) (st : AsmState)
    (outs : List AccessUnit) (sc : StartCode)
    (h : findStartCode buf 0 = some sc) (hpos : 0 < sc.offset) :
    annexBLoop buf 0 st outs = annexBLoop (buf.drop sc.offset) 0 st outs := by
  rw [annexBLoop]
  split
  · next heq => rw [h] at heq; cases heq
  · next sc' heq =>
    rw [h] at heq
    cases heq
    rw [dif_pos ⟨rfl, hpos⟩]

/-- Step equation: a code was found but no second code follows yet. -/
theorem annexBLoop_eq_break (buf : List Nat) (p : Nat) (st : AsmState)
    (outs : List AccessUnit) (sc : StartCode)
    (h : findStartCode buf p = some sc) (hg : ¬ (p = 0 ∧ 0 < sc.offset))
    (h2 : findStartCode buf (sc.offset + sc.size) = none) :
    annexBLoop buf p st outs = (if 0 < p then buf.drop p else buf, st, outs) := by
  rw [annexBLoop]
  split
  · next heq => rfl
  · next sc' heq =>
    rw [h] at heq
    cases heq
    rw [dif_neg hg]
    split
    · rfl
    · next next_sc heq2 => rw [h2] at heq2; cases heq2

/-- Step equation: two consecutive codes were found; the NAL between
them (if non-empty) goes to the assembler and scanning resumes at the
second code. -/
theorem annexBLoop_eq_step (buf : List Nat) (p : Nat) (st : AsmState)
    (outs : List AccessUnit) (sc next_sc : StartCode)
    (h : findStartCode buf p = some sc) (hg : ¬ (p = 0 ∧ 0 < sc.offset))
    (h2 : findStartCode buf (sc.offset + sc.size) = some next_sc) :
    annexBLoop buf p st outs =
      (let nal_start := sc.offset + sc.size
       let nal_size := next_sc.offset - nal_start
       let pr :=
         if 0 < nal_size then
           let nal := (buf.drop nal_start).take nal_size
           emit_access_unit st nal (isVclNal nal)
         else (st, none)
       annexBLoop buf next_sc.offset pr.1 (outs ++ pr.2.toList)) := by
  rw [annexBLoop]
  split
  · next heq => rw [h] at heq; cases heq
  · next sc' heq =>
    rw [h] at heq
    cases heq
    rw [dif_neg hg]
    split
    · next heq2 => rw [h2] at heq2; cases heq2
    · next next_sc' heq2 =>
      rw [h2] at heq2
      cases heq2
      rfl

/-- The `outs` argument of `annexBLoop` is a pure accumulator: units
already emitted are carried through unchanged. -/
theorem annexBLoop_outs :
    ∀ n buf p st outs1 outs2, buf.length - p ≤ n →
      annexBLoop buf p st (outs1 ++ outs2) =
        ((annexBLoop buf p st outs2).1, (annexBLoop buf p st outs2).2.1,
          outs1 ++ (annexBLoop buf p st outs2).2.2) := by
  intro n
  induction n with
  | zero =>
    intro buf p st outs1 outs2 hn
    have hnone : findStartCode buf p = none := by
      rw [findStartCode_step]
      have : ¬ p + 3 < buf.length := by omega
      simp [this]
    rw [annexBLoop_eq_none _ _ _ _ hnone, annexBLoop_eq_none _ _ _ _ hnone]
  | succ n ih =>
    intro buf p st outs1 outs2 hn
    cases hsc : findStartCode buf p with
    | none =>
      rw [annexBLoop_eq_none _ _ _ _ hsc, annexBLoop_eq_none _ _ _ _ hsc]
    | some sc =>
      have hspec := findStartCode_spec (buf.length - p) buf p sc (Nat.le_refl _) hsc
      by_cases hg : p = 0 ∧ 0 < sc.offset
      · obtain ⟨hp, hoff⟩ := hg
        subst hp
        rw [annexBLoop_eq_garbage _ _ _ _ hsc hoff,
          annexBLoop_eq_garbage _ _ _ _ hsc hoff]
        exact ih _ 0 st outs1 outs2 (by simp only [List.length_drop]; omega)
      · cases hsc2 : findStartCode buf (sc.offset + sc.size) with
        | none =>
          rw [annexBLoop_eq_break _ _ _ _ _ hsc hg hsc2,
            annexBLoop_eq_break _ _ _ _ _ hsc hg hsc2]
        | some next_sc =>
          have hspec2 := findStartCode_spec (buf.length - (sc.offset + sc.size)) buf
            (sc.offset + sc.size) next_sc (Nat.le_refl _) hsc2
          have hsz : 3 ≤ sc.size := by rcases hspec.2.2.1 with h | h <;> omega
          rw [annexBLoop_eq_step _ _ _ _ _ _ hsc hg hsc2,
            annexBLoop_eq_step _ _ _ _ _ _ hsc hg hsc2]
          dsimp only
          rw [List.append_assoc]
          exact ih buf next_sc.offset _ outs1 _ (by omega)

/-- Processing from a parse position that sits exactly on a found start
code (or from which no code is found) is the same as first erasing the
consumed prefix and processing from position 0 — the formal content of
the C++ `stream_buf.erase` front-truncation. -/
theorem annexBLoop_shift :
    ∀ n buf p st outs, buf.length - p ≤ n → p ≤ buf.length →
      (∀ sc, findStartCode buf p = some sc → sc.offset = p) →
      annexBLoop buf p st outs = annexBLoop (buf.drop p) 0 st outs := by
  intro n
  induction n with
  | zero =>
    intro buf p st outs hn hple hal
    by_cases hp : p = 0
    · subst hp
      rw [List.drop_zero]
    · have hnone : findStartCode buf p = none := by
        rw [findStartCode_step]
        have : ¬ p + 3 < buf.length := by omega
        simp [this]
      have hnone2 : findStartCode (buf.drop p) 0 = none := by
        have : ¬ 0 + 3 < (buf.drop p).length := by
          simp only [List.length_drop]; omega
        rw [findStartCode_step, if_neg this]
      rw [annexBLoop_eq_none _ _ _ _ hnone, annexBLoop_eq_none _ _ _ _ hnone2]
      rw [if_pos (Nat.pos_of_ne_zero hp), if_neg (by omega : ¬ (0:Nat) < 0)]
  | succ n ih =>
    intro buf p st outs hn hple hal
    by_cases hp : p = 0
    · subst hp
      rw [List.drop_zero]
    · have hlen_take : (buf.take p).length = p := List.length_take_of_le hple
      have hshift : ∀ i, findStartCode buf (p + i) =
          (findStartCode (buf.drop p) i).map
            (fun t => (⟨p + t.offset, t.size⟩ : StartCode)) := by
        intro i
        conv_lhs => rw [← List.take_append_drop p buf]
        rw [show p + i = (buf.take p).length + i by rw [hlen_take]]
        rw [findStartCode_shift ((buf.drop p).length) (buf.take p) (buf.drop p) i
          (Nat.sub_le _ _)]
        simp [hlen_take]
      cases hsc : findStartCode buf p with
      | none =>
        have h0 : findStartCode (buf.drop p) 0 = none := by
          have hs := hshift 0
          rw [Nat.add_zero, hsc] at hs
          cases h0' : findStartCode (buf.drop p) 0 with
          | none => rfl
          | some t => rw [h0'] at hs; simp at hs
        rw [annexBLoop_eq_none _ _ _ _ hsc, annexBLoop_eq_none _ _ _ _ h0]
        rw [if_pos (Nat.pos_of_ne_zero hp), if_neg (by omega : ¬ (0:Nat) < 0)]
      | some sc =>
        have hoff : sc.offset = p := hal sc hsc
        have hspec := findStartCode_spec (buf.length - p) buf p sc (Nat.le_refl _) hsc
        have hsz3 : 3 ≤ sc.size := by rcases hspec.2.2.1 with h | h <;> omega
        have h0 : findStartCode (buf.drop p) 0 = some ⟨0, sc.size⟩ := by
          have hs := hshift 0
          rw [Nat.add_zero, hsc] at hs
          cases h0' : findStartCode (buf.drop p) 0 with
          | none => rw [h0'] at hs; simp at hs
          | some t =>
            rw [h0'] at hs
            simp only [Option.map_some'] at hs
            have hst : sc = (⟨p + t.offset, t.size⟩ : StartCode) := Option.some.inj hs
            have h1 : sc.offset = p + t.offset := by rw [hst]
            have h2 : sc.size = t.size := by rw [hst]
            have ht0 : t.offset = 0 := by omega
            obtain ⟨to', ts'⟩ := t
            simp only at ht0 h2
            rw [ht0, ← h2]
        have hguard : ¬ (p = 0 ∧ 0 < sc.offset) := fun hcon => hp hcon.1
        have hguard0 : ¬ ((0:Nat) = 0 ∧ 0 < (⟨0, sc.size⟩ : StartCode).offset) := by
          simp
        cases hsc2 : findStartCode buf (sc.offset + sc.size) with
        | none =>
          have hsc2' : findStartCode buf (p + sc.size) = none := by
            rw [← hoff]; exact hsc2
          have h2' : findStartCode (buf.drop p)
              ((⟨0, sc.size⟩ : StartCode).offset + (⟨0, sc.size⟩ : StartCode).size) =
              none := by
            have hs := hshift sc.size
            rw [hsc2'] at hs
            simp only
            cases h2'' : findStartCode (buf.drop p) sc.size with
            | none => rw [Nat.zero_add]; exact h2''
            | some t => rw [h2''] at hs; simp at hs
          rw [annexBLoop_eq_break _ _ _ _ _ hsc hguard hsc2,
            annexBLoop_eq_break _ _ _ _ _ h0 hguard0 h2']
          rw [if_pos (Nat.pos_of_ne_zero hp), if_neg (by omega : ¬ (0:Nat) < 0)]
        | some next_sc =>
          have hspec2 := findStartCode_spec (buf.length - (sc.offset + sc.size)) buf
            (sc.offset + sc.size) next_sc (Nat.le_refl _) hsc2
          have hsc2' : findStartCode buf (p + sc.size) = some next_sc := by
            rw [← hoff]; exact hsc2
          obtain ⟨t2, ht2, ht2off⟩ : ∃ t2, findStartCode (buf.drop p) sc.size = some t2 ∧
              next_sc = (⟨p + t2.offset, t2.size⟩ : StartCode) := by
            have hs := hshift sc.size
            rw [hsc2'] at hs
            cases h2'' : findStartCode (buf.drop p) sc.size with
            | none => rw [h2''] at hs; simp at hs
            | some t2 =>
              rw [h2''] at hs
              simp only [Option.map_some'] at hs
              exact ⟨t2, rfl, Option.some.inj hs⟩
          have hspecT2 := findStartCode_spec ((buf.drop p).length - sc.size) (buf.drop p)
            sc.size t2 (Nat.le_refl _) ht2
          have ht2' : findStartCode (buf.drop p)
              ((⟨0, sc.size⟩ : StartCode).offset + (⟨0, sc.size⟩ : StartCode).size) =
              some t2 := by
            simp only
            rw [Nat.zero_add]
            exact ht2
          rw [annexBLoop_eq_step _ _ _ _ _ _ hsc hguard hsc2,
            annexBLoop_eq_step _ _ _ _ _ _ h0 hguard0 ht2']
          dsimp only
          -- the two NAL slices coincide
          have hdd : (buf.drop p).drop (0 + sc.size) = buf.drop (sc.offset + sc.size) := by
            rw [Nat.zero_add, List.drop_drop, hoff]
          have hnsz : t2.offset - (0 + sc.size) = next_sc.offset - (sc.offset + sc.size) := by
            rw [ht2off, hoff]
            simp only
            omega
          rw [hdd, hnsz]
          -- both recursions reduce to the buffer dropped at the second code
          have hrefind : findStartCode buf next_sc.offset = some next_sc :=
            findStartCode_refind buf (sc.offset + sc.size) next_sc hsc2
          have hrefind2 : findStartCode (buf.drop p) t2.offset = some t2 :=
            findStartCode_refind (buf.drop p) sc.size t2 ht2
          have hno : next_sc.offset = p + t2.offset := by rw [ht2off]
          rw [ih buf next_sc.offset _ _ (by omega) (by omega)
            (by intro sc' h'; rw [hrefind] at h'; cases h'; rfl)]
          rw [ih (buf.drop p) t2.offset _ _
            (by simp only [List.length_drop]; omega)
            (by simp only [List.length_drop]; omega)
            (by intro sc' h'; rw [hrefind2] at h'; cases h'; rfl)]
          rw [List.drop_drop, hno]

/-- Confluence of the Annex-B inner loop under buffer extension: running
the loop on `buf ++ ext` is the same as running it on `buf` and then
running it again on the retained buffer with `ext` appended. The parse
position must be 0 or sit exactly on a found start code, which is an
invariant of the loop. -/
theorem annexBLoop_append_ext :
    ∀ n buf p st outs ext, buf.length - p ≤ n → p ≤ buf.length →
      (p = 0 ∨ ∃ sz, findStartCode buf p = some ⟨p, sz⟩) →
      annexBLoop (buf ++ ext) p st outs =
        annexBLoop ((annexBLoop buf p st outs).1 ++ ext) 0
          (annexBLoop buf p st outs).2.1 (annexBLoop buf p st outs).2.2 := by
  intro n
  induction n with
  | zero =>
    intro buf p st outs ext hn hple hAlign
    rcases hAlign with hp | ⟨sz, hsz⟩
    · subst hp
      have hbuf : buf = [] := List.length_eq_zero.mp (by omega)
      subst hbuf
      have hnone : findStartCode [] 0 = none := by
        rw [findStartCode_step]
        simp
      rw [annexBLoop_eq_none _ _ _ _ hnone]
      rw [if_neg (by omega : ¬ (0:Nat) < 0)]
    · exfalso
      have := findStartCode_spec (buf.length - p) buf p ⟨p, sz⟩ (Nat.le_refl _) hsz
      have h3 := this.2.1
      simp only at h3
      omega
  | succ n ih =>
    intro buf p st outs ext hn hple hAlign
    cases hsc : findStartCode buf p with
    | none =>
      rcases hAlign with hp | ⟨sz, hsz⟩
      · subst hp
        rw [annexBLoop_eq_none _ _ _ _ hsc]
        rw [if_neg (by omega : ¬ (0:Nat) < 0)]
      · rw [hsc] at hsz
        cases hsz
    | some sc =>
      have hspec := findStartCode_spec (buf.length - p) buf p sc (Nat.le_refl _) hsc
      have hsz3 : 3 ≤ sc.size := by rcases hspec.2.2.1 with h | h <;> omega
      have hsc_ext : findStartCode (buf ++ ext) p = some sc :=
        findStartCode_append buf.length buf ext p sc (Nat.sub_le _ _) hsc
      by_cases hg : p = 0 ∧ 0 < sc.offset
      · obtain ⟨hp0, hoffpos⟩ := hg
        subst hp0
        rw [annexBLoop_eq_garbage _ _ _ _ hsc_ext hoffpos,
          annexBLoop_eq_garbage _ _ _ _ hsc hoffpos]
        rw [List.drop_append_of_le_length (by omega : sc.offset ≤ buf.length)]
        exact ih (buf.drop sc.offset) 0 st outs ext
          (by simp only [List.length_drop]; omega) (Nat.zero_le _) (Or.inl rfl)
      · cases hsc2 : findStartCode buf (sc.offset + sc.size) with
        | none =>
          by_cases hp : p = 0
          · subst hp
            rw [annexBLoop_eq_break _ _ _ _ _ hsc hg hsc2]
            rw [if_neg (by omega : ¬ (0:Nat) < 0)]
          · have hoffp : sc.offset = p := by
              rcases hAlign with hp0 | ⟨sz, hsz⟩
              · exact absurd hp0 hp
              · rw [hsc] at hsz
                cases hsz
                rfl
            rw [annexBLoop_eq_break _ _ _ _ _ hsc hg hsc2]
            rw [if_pos (Nat.pos_of_ne_zero hp)]
            rw [annexBLoop_shift ((buf ++ ext).length) (buf ++ ext) p st outs
              (Nat.sub_le _ _)
              (by simp only [List.length_append]; omega)
              (by intro sc' h'; rw [hsc_ext] at h'; cases h'; exact hoffp)]
            rw [List.drop_append_of_le_length hple]
        | some next_sc =>
          have hspec2 := findStartCode_spec (buf.length - (sc.offset + sc.size)) buf
            (sc.offset + sc.size) next_sc (Nat.le_refl _) hsc2
          have hsc2_ext : findStartCode (buf ++ ext) (sc.offset + sc.size) =
              some next_sc :=
            findStartCode_append buf.length buf ext (sc.offset + sc.size) next_sc
              (Nat.sub_le _ _) hsc2
          rw [annexBLoop_eq_step _ _ _ _ _ _ hsc_ext hg hsc2_ext,
            annexBLoop_eq_step _ _ _ _ _ _ hsc hg hsc2]
          dsimp only
          rw [List.drop_append_of_le_length (by omega : sc.offset + sc.size ≤ buf.length)]
          rw [List.take_append_of_le_length (by simp only [List.length_drop]; omega)]
          exact ih buf next_sc.offset _ _ ext (by omega) (by omega)
            (Or.inr ⟨next_sc.size, findStartCode_refind buf (sc.offset + sc.size) next_sc hsc2⟩)

/-- The persistent state of the Annex-B branch of `loop()` between
`recv` calls: the accumulation buffer `stream_buf` plus the assembler
state captured by `emit_access_unit`. -/
structure AnnexBState where
  stream_buf : List Nat
  asmSt : AsmState
deriving DecidableEq, Repr

/-- State at the top of the Annex-B branch: empty buffer, clean assembler. -/
def annexBInit : AnnexBState := ⟨[], asmInit⟩

/-- One iteration of the outer Annex-B `while (running_.load())` loop
for one successful `recv`: append the chunk to `stream_buf`, run the
inner scanning loop from `parse_pos = 0`, keep the retained buffer. -/
def processChunk (st : AnnexBState) (chunk : List Nat) :
    AnnexBState × List AccessUnit :=
  let r := annexBLoop (st.stream_buf ++ chunk) 0 st.asmSt []
  (⟨r.1, r.2.1⟩, r.2.2)

/-- Feeding a sequence of chunks (the successful `recv` results of the
Annex-B branch, in order), collecting all emitted access units. -/
def feedChunks (st : AnnexBState) (chunks : List (List Nat)) :
    AnnexBState × List AccessUnit :=
  match chunks with
  | [] => (st, [])
  | c :: cs =>
    let p := processChunk st c
    let r := feedChunks p.1 cs
    (r.1, p.2 ++ r.2)

/-- `annexBLoop_outs` specialised to an empty inner accumulator. -/
theorem annexBLoop_outs_nil (buf : List Nat) (p : Nat) (st : AsmState)
    (outs : List AccessUnit) :
    annexBLoop buf p st outs =
      ((annexBLoop buf p st []).1, (annexBLoop buf p st []).2.1,
        outs ++ (annexBLoop buf p st []).2.2) := by
  have h := annexBLoop_outs buf.length buf p st outs [] (Nat.sub_le _ _)
  rwa [List.append_nil] at h

/-- Two successive chunks are processed exactly like their concatenation. -/
theorem processChunk_append (st : AnnexBState) (c1 c2 : List Nat) :
    processChunk st (c1 ++ c2) =
      ((processChunk (processChunk st c1).1 c2).1,
        (processChunk st c1).2 ++ (processChunk (processChunk st c1).1 c2).2) := by
  unfold processChunk
  dsimp only
  rw [← List.append_assoc]
  rw [annexBLoop_append_ext (st.stream_buf ++ c1).length (st.stream_buf ++ c1) 0
    st.asmSt [] c2 (Nat.sub_le _ _) (Nat.zero_le _) (Or.inl rfl)]
  rw [annexBLoop_outs_nil ((annexBLoop (st.stream_buf ++ c1) 0 st.asmSt []).1 ++ c2) 0
    (annexBLoop (st.stream_buf ++ c1) 0 st.asmSt []).2.1
    (annexBLoop (st.stream_buf ++ c1) 0 st.asmSt []).2.2]

/-- One-step unfolding of `feedChunks`. -/
theorem feedChunks_cons (st : AnnexBState) (c : List Nat) (cs : List (List Nat)) :
    feedChunks st (c :: cs) =
      ((feedChunks (processChunk st c).1 cs).1,
        (processChunk st c).2 ++ (feedChunks (processChunk st c).1 cs).2) := rfl

/-- Feeding a non-empty chunk list equals processing its concatenation
as a single chunk. -/
theorem feedChunks_cons_join :
    ∀ cs c st, feedChunks st (c :: cs) = processChunk st ((c :: cs).flatten) := by
  intro cs
  induction cs with
  | nil =>
    intro c st
    rw [feedChunks_cons st c []]
    rw [show feedChunks (processChunk st c).1 [] = ((processChunk st c).1, []) from rfl]
    rw [show ([c] : List (List Nat)).flatten = c from by simp]
    rw [List.append_nil]
  | cons c2 cs ih =>
    intro c st
    rw [feedChunks_cons st c (c2 :: cs)]
    rw [ih c2 (processChunk st c).1]
    rw [show ((c :: c2 :: cs).flatten) = c ++ ((c2 :: cs).flatten) from by simp]
    rw [processChunk_append st c ((c2 :: cs).flatten)]

/-- No bytes: the Annex-B branch emits nothing and retains nothing. -/
theorem processChunk_nil_init : processChunk annexBInit [] = (annexBInit, []) := by
  have hnone : findStartCode ([] : List Nat) 0 = none := by
    rw [findStartCode_step]
    simp
  unfold processChunk
  dsimp only
  rw [show (annexBInit.stream_buf ++ [] : List Nat) = [] from by simp [annexBInit]]
  rw [annexBLoop_eq_none _ _ _ _ hnone]
  rw [if_neg (by omega : ¬ (0:Nat) < 0)]
  rfl

/-- Claim C2: for every finite Annex-B byte stream and every way of
splitting it into successive chunks (one byte at a time included),
feeding the chunks to the Annex-B parser produces exactly the same
emitted access units — same bytes, same keyframe flags, same order (and
even the same retained state) — as feeding the whole stream as one chunk. -/
theorem spec_C2_chunking_invariance (chunks : List (List Nat)) :
    feedChunks annexBInit chunks = feedChunks annexBInit [chunks.flatten] := by
  cases chunks with
  | nil =>
    rw [feedChunks_cons_join [] ([] : List (List Nat)).flatten annexBInit]
    rw [show ((([] : List (List Nat)).flatten :: ([] : List (List Nat))).flatten) =
          ([] : List Nat) from by simp]
    rw [processChunk_nil_init]
    rfl
  | cons c cs =>
    rw [feedChunks_cons_join cs c annexBInit,
      feedChunks_cons_join [] ((c :: cs).flatten) annexBInit]
    rw [show (((c :: cs).flatten :: ([] : List (List Nat))).flatten) =
          (c :: cs).flatten from by simp]

/-- A NAL unit re-framed with the canonical 4-byte start code, as
`emit_access_unit` writes it into the pending access unit. -/
def withCode (nal : List Nat) : List Nat := kStartCode ++ nal

/-- Specification-side grouping of a NAL sequence into access units:
each group is a maximal run of non-VCL NALs closed off by one VCL NAL;
trailing non-VCL NALs with no following VCL NAL stay pending. -/
def splitGroups (nals : List (List Nat)) :
    List (List (List Nat)) × List (List Nat) :=
  match nals with
  | [] => ([], [])
  | n :: rest =>
    let r := splitGroups rest
    if isVclNal n then
      ([n] :: r.1, r.2)
    else
      match r.1 with
      | [] => ([], n :: r.2)
      | g :: gs => ((n :: g) :: gs, r.2)

/-- Emission count: one access unit per VCL NAL fed to the assembler. -/
theorem assembleNals_length :
    ∀ nals st, (assembleNals st nals).2.length =
      nals.countP (fun n => isVclNal n) := by
  intro nals
  induction nals with
  | nil =>
    intro st
    simp [assembleNals]
  | cons n rest ih =>
    intro st
    simp only [assembleNals, List.countP_cons]
    by_cases hv : isVclNal n = true
    · simp [emit_access_unit, hv, ih]
    · simp only [Bool.not_eq_true] at hv
      simp [emit_access_unit, hv, ih]

/-- Claim C1: the assembler emits an access unit exactly when the NAL
just appended is VCL (type 1 or 5).  Part 1: over any NAL sequence, the
number of emitted units equals the number of VCL NALs.  Part 2: a single
step emits iff the NAL is VCL.  Part 3: a non-VCL NAL is appended (start
code plus payload) to the pending unit and emits nothing. -/
theorem spec_C1_emit_iff_vcl (st : AsmState) (nals : List (List Nat))
    (nal : List Nat) :
    (assembleNals st nals).2.length = nals.countP (fun n => isVclNal n) ∧
    ((emit_access_unit st nal (isVclNal nal)).2.isSome = isVclNal nal) ∧
    ((emit_access_unit st nal false).1.access_unit =
        st.access_unit ++ kStartCode ++ nal ∧
      (emit_access_unit st nal false).2 = none) := by
  refine ⟨assembleNals_length nals st, ?_, ?_, rfl⟩
  · by_cases hv : isVclNal nal = true
    · simp [emit_access_unit, hv]
    · simp only [Bool.not_eq_true] at hv
      simp [emit_access_unit, hv]
  · simp [emit_access_unit]

/-- Keyframe flags of the emitted units, generalised over the starting
assembler state. -/
theorem assembleNals_keyflags :
    ∀ nals buf flag,
      ((assembleNals ⟨buf, flag⟩ nals).2.map (fun u => u.is_keyframe)) =
        (match (splitGroups nals).1 with
         | [] => []
         | g :: gs =>
             (flag || g.any (fun n => isIdrNal n)) ::
               gs.map (fun g => g.any (fun n => isIdrNal n))) := by
  intro nals
  induction nals with
  | nil =>
    intro buf flag
    simp [assembleNals, splitGroups]
  | cons n rest ih =>
    intro buf flag
    by_cases hv : isVclNal n = true
    · simp only [assembleNals]
      rw [show emit_access_unit ⟨buf, flag⟩ n (isVclNal n) =
            (⟨[], false⟩, some ⟨buf ++ kStartCode ++ n, flag || isIdrNal n⟩) from by
          simp [emit_access_unit, hv]]
      dsimp only
      rw [List.map_append, ih [] false]
      have hsplit : (splitGroups (n :: rest)).1 = [n] :: (splitGroups rest).1 := by
        simp [splitGroups, hv]
      rw [hsplit]
      cases hgr : (splitGroups rest).1 with
      | nil => simp [hgr]
      | cons g gs => simp [hgr]
    · simp only [Bool.not_eq_true] at hv
      simp only [assembleNals]
      rw [show emit_access_unit ⟨buf, flag⟩ n (isVclNal n) =
            (⟨buf ++ kStartCode ++ n, flag || isIdrNal n⟩, none) from by
          simp [emit_access_unit, hv]]
      dsimp only
      rw [show (none : Option AccessUnit).toList = [] from rfl, List.nil_append]
      rw [ih (buf ++ kStartCode ++ n) (flag || isIdrNal n)]
      cases hgr : (splitGroups rest).1 with
      | nil =>
        have hsplit : (splitGroups (n :: rest)).1 = [] := by
          simp [splitGroups, hv, hgr]
        simp [hsplit, hgr]
      | cons g gs =>
        have hsplit : (splitGroups (n :: rest)).1 = (n :: g) :: gs := by
          simp [splitGroups, hv, hgr]
        simp [hsplit, hgr, Bool.or_assoc]

/-- Claim C4: an emitted access unit's `is_keyframe` flag is true iff at
least one NAL in its group has type 5, in any position, and the flag is
reset after each emission, so each group is judged independently. -/
theorem spec_C4_keyframe_iff_idr (nals : List (List Nat)) :
    ((assembleNals asmInit nals).2.map (fun u => u.is_keyframe)) =
      (splitGroups nals).1.map (fun g => g.any (fun n => isIdrNal n)) := by
  have h := assembleNals_keyflags nals [] false
  rw [show (⟨[], false⟩ : AsmState) = asmInit from rfl] at h
  rw [h]
  cases hgr : (splitGroups nals).1 with
  | nil => simp
  | cons g gs => simp

/-- The big-endian 32-bit length decode of the AVCC branch:
`(lenBuf[0] << 24) | (lenBuf[1] << 16) | (lenBuf[2] << 8) | lenBuf[3]`. -/
def be32 (b0 b1 b2 b3 : Nat) : Nat :=
  (b0 <<< 24) ||| (b1 <<< 16) ||| (b2 <<< 8) ||| b3

/-- Why the AVCC branch left its loop; the worker stores
`running_ = false` on every exit path (line 359) either way. -/
inductive StopReason where
  | ioError
  | protocolViolation
deriving DecidableEq, Repr

/-- The AVCC (length-prefixed) branch of `loop()` over the byte stream
the socket delivers: read 4 header bytes (the inner read loop makes the
read exact, or the stream ends first — `ioError`), decode the length
big-endian (`nalLen` in the source), validate `0 < nalLen ≤ kMaxNalSize`
(else `protocolViolation`: stop, emitting nothing for the record), read
exactly `nalLen` payload bytes the same way, and hand the buffer to the
assembler as one NAL unit. -/
def avccLoop (input : List Nat) (st : AsmState) (outs : List AccessUnit) :
    List AccessUnit × StopReason :=
  match input with
  | b0 :: b1 :: b2 :: b3 :: rest =>
    if hbad : be32 b0 b1 b2 b3 = 0 ∨ kMaxNalSize < be32 b0 b1 b2 b3 then
      (outs, .protocolViolation)
    else if hshort : rest.length < be32 b0 b1 b2 b3 then
      (outs, .ioError)
    else
      let nal := rest.take (be32 b0 b1 b2 b3)
      let pr := emit_access_unit st nal (isVclNal nal)
      avccLoop (rest.drop (be32 b0 b1 b2 b3)) pr.1 (outs ++ pr.2.toList)
  | _ => (outs, .ioError)
termination_by input.length
decreasing_by
  simp only [List.length_drop, List.length_cons]
  have : ¬ be32 b0 b1 b2 b3 = 0 := fun h => hbad (Or.inl h)
  omega

/-- Step equation: an invalid declared length stops the loop without
emitting anything for the record. -/
theorem avccLoop_eq_bad (b0 b1 b2 b3 : Nat) (rest : List Nat) (st : AsmState)
    (outs : List AccessUnit)
    (h : be32 b0 b1 b2 b3 = 0 ∨ kMaxNalSize < be32 b0 b1 b2 b3) :
    avccLoop (b0 :: b1 :: b2 :: b3 :: rest) st outs =
      (outs, .protocolViolation) := by
  unfold avccLoop
  rw [dif_pos h]

/-- Step equation: the stream ends inside the payload. -/
theorem avccLoop_eq_shortPayload (b0 b1 b2 b3 : Nat) (rest : List Nat)
    (st : AsmState) (outs : List AccessUnit)
    (h : ¬ (be32 b0 b1 b2 b3 = 0 ∨ kMaxNalSize < be32 b0 b1 b2 b3))
    (h2 : rest.length < be32 b0 b1 b2 b3) :
    avccLoop (b0 :: b1 :: b2 :: b3 :: rest) st outs = (outs, .ioError) := by
  unfold avccLoop
  rw [dif_neg h, dif_pos h2]

/-- Step equation: a valid record of exactly `be32 …` payload bytes. -/
theorem avccLoop_eq_step (b0 b1 b2 b3 : Nat) (rest : List Nat) (st : AsmState)
    (outs : List AccessUnit)
    (h : ¬ (be32 b0 b1 b2 b3 = 0 ∨ kMaxNalSize < be32 b0 b1 b2 b3))
    (h2 : ¬ rest.length < be32 b0 b1 b2 b3) :
    avccLoop (b0 :: b1 :: b2 :: b3 :: rest) st outs =
      avccLoop (rest.drop (be32 b0 b1 b2 b3))
        (emit_access_unit st (rest.take (be32 b0 b1 b2 b3))
          (isVclNal (rest.take (be32 b0 b1 b2 b3)))).1
        (outs ++ (emit_access_unit st (rest.take (be32 b0 b1 b2 b3))
          (isVclNal (rest.take (be32 b0 b1 b2 b3)))).2.toList) := by
  conv_lhs => unfold avccLoop
  rw [dif_neg h, dif_neg h2]

/-- Fewer than four bytes remain: the header read fails. -/
theorem avccLoop_short (input : List Nat) (st : AsmState)
    (outs : List AccessUnit) (h : input.length < 4) :
    avccLoop input st outs = (outs, .ioError) := by
  rcases input with _ | ⟨a, _ | ⟨b, _ | ⟨c, _ | ⟨d, t⟩⟩⟩⟩
  · unfold avccLoop; rfl
  · unfold avccLoop; rfl
  · unfold avccLoop; rfl
  · unfold avccLoop; rfl
  · simp at h; omega

/-- A list of length four is four explicit elements. -/
theorem exists_four (l : List Nat) (h : l.length = 4) :
    ∃ a b c d, l = [a, b, c, d] := by
  rcases l with _ | ⟨a, l⟩
  · simp at h
  rcases l with _ | ⟨b, l⟩
  · simp at h
  rcases l with _ | ⟨c, l⟩
  · simp at h
  rcases l with _ | ⟨d, l⟩
  · simp at h
  have hl : l = [] := by
    simp only [List.length_cons] at h
    exact List.length_eq_zero.mp (by omega)
  subst hl
  exact ⟨a, b, c, d, rfl⟩

/-- A list with at least four elements splits off four explicit bytes. -/
theorem exists_four_cons (l : List Nat) (h : 4 ≤ l.length) :
    ∃ a b c d t, l = a :: b :: c :: d :: t := by
  rcases l with _ | ⟨a, l⟩
  · simp at h
  rcases l with _ | ⟨b, l⟩
  · simp at h
  rcases l with _ | ⟨c, l⟩
  · simp at h
  rcases l with _ | ⟨d, l⟩
  · simp at h
  exact ⟨a, b, c, d, l, rfl⟩

/-- A well-formed AVCC record: a 4-byte header that decodes (big-endian)
to the payload length, which passes the `0 < len ≤ kMaxNalSize` check. -/
def goodAvccRecord (r : List Nat × List Nat) : Prop :=
  r.1.length = 4 ∧
  be32 (byteAt r.1 0) (byteAt r.1 1) (byteAt r.1 2) (byteAt r.1 3) = r.2.length ∧
  0 < r.2.length ∧ r.2.length ≤ kMaxNalSize

/-- The wire form of a sequence of AVCC records. -/
def encodeAvcc (rs : List (List Nat × List Nat)) : List Nat :=
  (rs.map (fun r => r.1 ++ r.2)).flatten

/-- The AVCC branch consumes well-formed records one by one, forwarding
each payload — exactly the declared number of bytes — to the assembler
as one NAL unit, then continues with whatever follows. -/
theorem avccLoop_records :
    ∀ rs st outs suffix, (∀ r ∈ rs, goodAvccRecord r) →
      avccLoop (encodeAvcc rs ++ suffix) st outs =
        avccLoop suffix (assembleNals st (rs.map Prod.snd)).1
          (outs ++ (assembleNals st (rs.map Prod.snd)).2) := by
  intro rs
  induction rs with
  | nil =>
    intro st outs suffix hgood
    simp [encodeAvcc, assembleNals]
  | cons r rs ih =>
    intro st outs suffix hgood
    obtain ⟨hlen4, hbe, hpos, hmax⟩ := hgood r (List.mem_cons_self r rs)
    obtain ⟨a, b, c, d, hhdr⟩ := exists_four r.1 hlen4
    have henc : encodeAvcc (r :: rs) ++ suffix =
        a :: b :: c :: d :: (r.2 ++ (encodeAvcc rs ++ suffix)) := by
      simp [encodeAvcc, hhdr]
    rw [henc]
    have hbe' : be32 a b c d = r.2.length := by
      rw [hhdr] at hbe
      simpa [byteAt] using hbe
    have hok : ¬ (be32 a b c d = 0 ∨ kMaxNalSize < be32 a b c d) := by
      rw [hbe']
      omega
    have hlong : ¬ (r.2 ++ (encodeAvcc rs ++ suffix)).length < be32 a b c d := by
      rw [hbe']
      simp only [List.length_append]
      omega
    rw [avccLoop_eq_step a b c d _ st outs hok hlong]
    rw [hbe', List.take_left, List.drop_left]
    rw [ih _ _ suffix (fun r hr => hgood r (List.mem_cons_of_mem _ hr))]
    simp only [List.map_cons, assembleNals]
    rw [List.append_assoc]

/-- A trailing byte sequence on which the AVCC branch cannot complete a
record: the stream ends inside the 4-byte header, or inside the payload
of a record whose declared length passed validation. -/
def truncatedAvcc (t : List Nat) : Prop :=
  t.length < 4 ∨
    (0 < be32 (byteAt t 0) (byteAt t 1) (byteAt t 2) (byteAt t 3) ∧
     be32 (byteAt t 0) (byteAt t 1) (byteAt t 2) (byteAt t 3) ≤ kMaxNalSize ∧
     t.length < 4 + be32 (byteAt t 0) (byteAt t 1) (byteAt t 2) (byteAt t 3))

/-- On a truncated record the AVCC branch stops with an I/O error and
emits nothing further: in particular the partially accumulated access
unit inside the assembler state never reaches the callback. -/
theorem avccLoop_truncated (t : List Nat) (st : AsmState)
    (outs : List AccessUnit) (h : truncatedAvcc t) :
    avccLoop t st outs = (outs, .ioError) := by
  by_cases hl4 : t.length < 4
  · exact avccLoop_short t st outs hl4
  · rcases h with hshort | ⟨hpos, hmax, hlen⟩
    · exact absurd hshort hl4
    · obtain ⟨a, b, c, d, rest, ht⟩ := exists_four_cons t (by omega)
      subst ht
      have hb0 : byteAt (a :: b :: c :: d :: rest) 0 = a := rfl
      have hb1 : byteAt (a :: b :: c :: d :: rest) 1 = b := rfl
      have hb2 : byteAt (a :: b :: c :: d :: rest) 2 = c := rfl
      have hb3 : byteAt (a :: b :: c :: d :: rest) 3 = d := rfl
      rw [hb0, hb1, hb2, hb3] at hpos hmax hlen
      have hok : ¬ (be32 a b c d = 0 ∨ kMaxNalSize < be32 a b c d) := by omega
      have hshort2 : rest.length < be32 a b c d := by
        simp only [List.length_cons] at hlen
        omega
      exact avccLoop_eq_shortPayload a b c d rest st outs hok hshort2

/-- The Annex-B worker as a whole: every successful `recv` yields a
chunk which is parsed and whose completed access units are delivered to
the callback inline; when `recv` returns `<= 0` the loop stores
`running_ = false` and breaks, discarding `stream_buf` and the pending
access unit. The Bool is the `running_` flag after `loop()` returns. -/
def annexBWorker (st : AnnexBState) (outs : List AccessUnit)
    (chunks : List (List Nat)) : List AccessUnit × Bool :=
  match chunks with
  | [] => (outs, false)
  | c :: cs =>
    let p := processChunk st c
    annexBWorker p.1 (outs ++ p.2) cs

/-- The worker delivers exactly the units of the pure chunk fold and
always ends with the liveness flag cleared. -/
theorem annexBWorker_eq :
    ∀ chunks st outs,
      annexBWorker st outs chunks = (outs ++ (feedChunks st chunks).2, false) := by
  intro chunks
  induction chunks with
  | nil =>
    intro st outs
    simp [annexBWorker, feedChunks]
  | cons c cs ih =>
    intro st outs
    rw [show annexBWorker st outs (c :: cs) =
          annexBWorker (processChunk st c).1 (outs ++ (processChunk st c).2) cs
        from rfl]
    rw [ih (processChunk st c).1 (outs ++ (processChunk st c).2)]
    rw [feedChunks_cons st c cs]
    rw [List.append_assoc]

/-- Claim C3: in AVCC mode each record starts with a 4-byte big-endian
length; a decoded length of 0 or above 4 MiB stops the source without
emitting anything for that record, and a valid length `L` makes the
parser consume exactly `L` payload bytes and forward them as one NAL
unit — stated for a single record and for any sequence of valid records. -/
theorem spec_C3_avcc_length_validation :
    (∀ b0 b1 b2 b3 rest (st : AsmState) (outs : List AccessUnit),
        be32 b0 b1 b2 b3 = 0 ∨ kMaxNalSize < be32 b0 b1 b2 b3 →
        avccLoop (b0 :: b1 :: b2 :: b3 :: rest) st outs =
          (outs, StopReason.protocolViolation)) ∧
    (∀ b0 b1 b2 b3 rest (st : AsmState) (outs : List AccessUnit),
        ¬ (be32 b0 b1 b2 b3 = 0 ∨ kMaxNalSize < be32 b0 b1 b2 b3) →
        ¬ rest.length < be32 b0 b1 b2 b3 →
        avccLoop (b0 :: b1 :: b2 :: b3 :: rest) st outs =
          avccLoop (rest.drop (be32 b0 b1 b2 b3))
            (emit_access_unit st (rest.take (be32 b0 b1 b2 b3))
              (isVclNal (rest.take (be32 b0 b1 b2 b3)))).1
            (outs ++ (emit_access_unit st (rest.take (be32 b0 b1 b2 b3))
              (isVclNal (rest.take (be32 b0 b1 b2 b3)))).2.toList)) ∧
    (∀ rs st outs suffix, (∀ r ∈ rs, goodAvccRecord r) →
        avccLoop (encodeAvcc rs ++ suffix) st outs =
          avccLoop suffix (assembleNals st (rs.map Prod.snd)).1
            (outs ++ (assembleNals st (rs.map Prod.snd)).2)) :=
  ⟨avccLoop_eq_bad, avccLoop_eq_step, avccLoop_records⟩

/-- Witness for C3 at concrete inputs: a zero length stops the source
with nothing emitted, and a valid 1-byte IDR record is consumed whole. -/
theorem spec_C3_avcc_length_validation_witness :
    avccLoop [0, 0, 0, 0, 9] asmInit [] = ([], StopReason.protocolViolation) ∧
    avccLoop (encodeAvcc [([0, 0, 0, 1], [101])] ++ []) asmInit [] =
      avccLoop []
        (assembleNals asmInit (List.map Prod.snd [([0, 0, 0, 1], [101])])).1
        ([] ++ (assembleNals asmInit
          (List.map Prod.snd [([0, 0, 0, 1], [101])])).2) := by
  constructor
  · exact spec_C3_avcc_length_validation.1 0 0 0 0 [9] asmInit []
      (Or.inl (by decide))
  · exact spec_C3_avcc_length_validation.2.2 [([0, 0, 0, 1], [101])] asmInit [] []
      (by
        intro r hr
        simp only [List.mem_singleton] at hr
        subst hr
        refine ⟨rfl, by decide, by decide, by decide⟩)

/-- Claim C7: a socket read failure (end of stream or error) at any
point makes the worker exit with the liveness flag cleared, and the
partially accumulated access unit in flight is discarded — in AVCC mode
the outputs are exactly those of the preceding complete records, and in
Annex-B mode exactly those of the chunks parsed before the failing read. -/
theorem spec_C7_io_error_discards_pending :
    (∀ rs t (st : AsmState) (outs : List AccessUnit),
        (∀ r ∈ rs, goodAvccRecord r) → truncatedAvcc t →
        avccLoop (encodeAvcc rs ++ t) st outs =
          (outs ++ (assembleNals st (rs.map Prod.snd)).2, StopReason.ioError)) ∧
    (∀ chunks, annexBWorker annexBInit [] chunks =
        ((feedChunks annexBInit chunks).2, false)) := by
  constructor
  · intro rs t st outs hgood htr
    rw [avccLoop_records rs st outs t hgood, avccLoop_truncated t _ _ htr]
  · intro chunks
    rw [annexBWorker_eq chunks annexBInit []]
    rw [List.nil_append]

/-- Witness for C7: an SPS-only record (non-VCL, so its access unit is
still pending) followed by a truncated header yields no output at all,
and an Annex-B fragment with no complete NAL yields no output with the
flag cleared. -/
theorem spec_C7_io_error_discards_pending_witness :
    avccLoop (encodeAvcc [([0, 0, 0, 1], [103])] ++ [0, 0]) asmInit [] =
      ([] ++ (assembleNals asmInit (List.map Prod.snd [([0, 0, 0, 1], [103])])).2,
        StopReason.ioError) ∧
    annexBWorker annexBInit [] [[0, 0, 0, 1, 103]] =
      ((feedChunks annexBInit [[0, 0, 0, 1, 103]]).2, false) := by
  constructor
  · exact spec_C7_io_error_discards_pending.1 [([0, 0, 0, 1], [103])] [0, 0]
      asmInit []
      (by
        intro r hr
        simp only [List.mem_singleton] at hr
        subst hr
        refine ⟨rfl, by decide, by decide, by decide⟩)
      (Or.inl (by decide))
  · exact spec_C7_io_error_discards_pending.2 [[0, 0, 0, 1, 103]]

/-- A well-framed access unit: a non-empty ordered concatenation of NAL
units, each re-prefixed with the canonical 4-byte start code. -/
def GoodAU (u : AccessUnit) : Prop :=
  ∃ g : List (List Nat), g ≠ [] ∧ u.data = ((g.map withCode).flatten)

/-- `emit_access_unit` preserves the framing invariant of the pending
buffer and only ever hands well-framed units to the callback. -/
theorem emit_access_unit_good (st : AsmState) (nal : List Nat) (v : Bool)
    (l : List (List Nat)) (hl : st.access_unit = ((l.map withCode).flatten)) :
    (∃ l2 : List (List Nat),
        (emit_access_unit st nal v).1.access_unit = ((l2.map withCode).flatten)) ∧
    (∀ u ∈ (emit_access_unit st nal v).2.toList, GoodAU u) := by
  have hdata : st.access_unit ++ kStartCode ++ nal =
      ((((l ++ [nal]).map withCode).flatten)) := by
    rw [List.map_append, List.flatten_append, hl]
    simp [withCode, List.append_assoc]
  by_cases hv : v = true
  · subst hv
    have hemit : emit_access_unit st nal true =
        (⟨[], false⟩, some ⟨st.access_unit ++ kStartCode ++ nal,
          st.has_idr || isIdrNal nal⟩) := by
      simp [emit_access_unit]
    rw [hemit]
    constructor
    · exact ⟨[], by simp⟩
    · intro u hu
      rw [show (some (⟨st.access_unit ++ kStartCode ++ nal,
            st.has_idr || isIdrNal nal⟩ : AccessUnit)).toList =
          [⟨st.access_unit ++ kStartCode ++ nal, st.has_idr || isIdrNal nal⟩]
          from rfl] at hu
      rw [List.mem_singleton] at hu
      subst hu
      exact ⟨l ++ [nal], by simp, hdata⟩
  · have hv' : v = false := by
      cases v
      · rfl
      · exact absurd rfl hv
    subst hv'
    have hemit : emit_access_unit st nal false =
        (⟨st.access_unit ++ kStartCode ++ nal, st.has_idr || isIdrNal nal⟩,
          none) := by
      simp [emit_access_unit]
    rw [hemit]
    constructor
    · exact ⟨l ++ [nal], hdata⟩
    · intro u hu
      simp at hu

/-- The Annex-B inner loop preserves the framing invariant. -/
theorem annexBLoop_good :
    ∀ n buf p st outs, buf.length - p ≤ n →
      (∃ l : List (List Nat), st.access_unit = ((l.map withCode).flatten)) →
      (∀ u ∈ outs, GoodAU u) →
      (∃ l : List (List Nat),
          (annexBLoop buf p st outs).2.1.access_unit = ((l.map withCode).flatten)) ∧
      (∀ u ∈ (annexBLoop buf p st outs).2.2, GoodAU u) := by
  intro n
  induction n with
  | zero =>
    intro buf p st outs hn hst houts
    have hnone : findStartCode buf p = none := by
      rw [findStartCode_step]
      have : ¬ p + 3 < buf.length := by omega
      simp [this]
    rw [annexBLoop_eq_none _ _ _ _ hnone]
    exact ⟨hst, houts⟩
  | succ n ih =>
    intro buf p st outs hn hst houts
    cases hsc : findStartCode buf p with
    | none =>
      rw [annexBLoop_eq_none _ _ _ _ hsc]
      exact ⟨hst, houts⟩
    | some sc =>
      have hspec := findStartCode_spec (buf.length - p) buf p sc (Nat.le_refl _) hsc
      by_cases hg : p = 0 ∧ 0 < sc.offset
      · obtain ⟨hp, hoff⟩ := hg
        subst hp
        rw [annexBLoop_eq_garbage _ _ _ _ hsc hoff]
        exact ih _ 0 st outs (by simp only [List.length_drop]; omega) hst houts
      · cases hsc2 : findStartCode buf (sc.offset + sc.size) with
        | none =>
          rw [annexBLoop_eq_break _ _ _ _ _ hsc hg hsc2]
          exact ⟨hst, houts⟩
        | some next_sc =>
          have hspec2 := findStartCode_spec (buf.length - (sc.offset + sc.size)) buf
            (sc.offset + sc.size) next_sc (Nat.le_refl _) hsc2
          have hsz : 3 ≤ sc.size := by rcases hspec.2.2.1 with h | h <;> omega
          rw [annexBLoop_eq_step _ _ _ _ _ _ hsc hg hsc2]
          dsimp only
          by_cases hns : 0 < next_sc.offset - (sc.offset + sc.size)
          · rw [if_pos hns]
            obtain ⟨l, hl⟩ := hst
            have hgood := emit_access_unit_good st
              ((buf.drop (sc.offset + sc.size)).take
                (next_sc.offset - (sc.offset + sc.size)))
              (isVclNal ((buf.drop (sc.offset + sc.size)).take
                (next_sc.offset - (sc.offset + sc.size)))) l hl
            refine ih buf next_sc.offset _ _ (by omega) hgood.1 ?_
            intro u hu
            rcases List.mem_append.mp hu with h1 | h1
            · exact houts u h1
            · exact hgood.2 u h1
          · rw [if_neg hns]
            refine ih buf next_sc.offset st _ (by omega) hst ?_
            intro u hu
            rcases List.mem_append.mp hu with h1 | h1
            · exact houts u h1
            · simp at h1

/-- One-chunk corollary for the outer loop. -/
theorem processChunk_good (st : AnnexBState) (c : List Nat)
    (h : ∃ l : List (List Nat),
      st.asmSt.access_unit = ((l.map withCode).flatten)) :
    (∃ l : List (List Nat),
        (processChunk st c).1.asmSt.access_unit = ((l.map withCode).flatten)) ∧
    (∀ u ∈ (processChunk st c).2, GoodAU u) := by
  have hres := annexBLoop_good (st.stream_buf ++ c).length (st.stream_buf ++ c) 0
    st.asmSt [] (Nat.sub_le _ _) h (by intro u hu; simp at hu)
  exact hres

/-- All units emitted over any chunk sequence are well framed. -/
theorem feedChunks_good :
    ∀ chunks st, (∃ l : List (List Nat),
        st.asmSt.access_unit = ((l.map withCode).flatten)) →
      ∀ u ∈ (feedChunks st chunks).2, GoodAU u := by
  intro chunks
  induction chunks with
  | nil =>
    intro st h u hu
    simp [feedChunks] at hu
  | cons c cs ih =>
    intro st h u hu
    rw [feedChunks_cons st c cs] at hu
    rcases List.mem_append.mp hu with h1 | h1
    · exact (processChunk_good st c h).2 u h1
    · exact ih (processChunk st c).1 (processChunk_good st c h).1 u h1

/-- The AVCC branch emits only well-framed units. -/
theorem avccLoop_good :
    ∀ n input st outs, input.length ≤ n →
      (∃ l : List (List Nat), st.access_unit = ((l.map withCode).flatten)) →
      (∀ u ∈ outs, GoodAU u) →
      ∀ u ∈ (avccLoop input st outs).1, GoodAU u := by
  intro n
  induction n with
  | zero =>
    intro input st outs hn hst houts u hu
    have hempty : input = [] := List.length_eq_zero.mp (by omega)
    subst hempty
    rw [avccLoop_short [] st outs (by simp)] at hu
    exact houts u hu
  | succ n ih =>
    intro input st outs hn hst houts u hu
    by_cases h4 : input.length < 4
    · rw [avccLoop_short input st outs h4] at hu
      exact houts u hu
    · obtain ⟨a, b, c, d, rest, hin⟩ := exists_four_cons input (by omega)
      subst hin
      by_cases hbad : be32 a b c d = 0 ∨ kMaxNalSize < be32 a b c d
      · rw [avccLoop_eq_bad a b c d rest st outs hbad] at hu
        exact houts u hu
      · by_cases hshort : rest.length < be32 a b c d
        · rw [avccLoop_eq_shortPayload a b c d rest st outs hbad hshort] at hu
          exact houts u hu
        · rw [avccLoop_eq_step a b c d rest st outs hbad hshort] at hu
          obtain ⟨l, hl⟩ := hst
          have hgood := emit_access_unit_good st (rest.take (be32 a b c d))
            (isVclNal (rest.take (be32 a b c d))) l hl
          refine ih _ _ _ ?_ hgood.1 ?_ u hu
          · simp only [List.length_drop]
            simp only [List.length_cons] at hn
            omega
          · intro u' hu'
            rcases List.mem_append.mp hu' with h1 | h1
            · exact houts u' h1
            · exact hgood.2 u' h1

/-- A well-framed unit is non-empty and starts with the 4-byte code. -/
theorem goodAU_framing (u : AccessUnit) (h : GoodAU u) :
    u.data ≠ [] ∧ u.data.take 4 = kStartCode := by
  obtain ⟨g, hne, hdata⟩ := h
  cases g with
  | nil => exact absurd rfl hne
  | cons nal g' =>
    constructor
    · rw [hdata]
      simp [withCode, kStartCode]
    · rw [hdata]
      rw [show ((((nal :: g').map withCode).flatten)) =
            kStartCode ++ (nal ++ (((g'.map withCode).flatten))) from by
          simp [withCode, List.append_assoc]]
      rw [List.take_append_of_le_length (by simp [kStartCode] : 4 ≤ kStartCode.length)]
      decide

/-- A single chunk through `feedChunks` is one `processChunk`. -/
theorem feedChunks_singleton (st : AnnexBState) (c : List Nat) :
    feedChunks st [c] = ((processChunk st c).1, (processChunk st c).2) := by
  rw [feedChunks_cons st c []]
  rw [show feedChunks (processChunk st c).1 [] = ((processChunk st c).1, []) from rfl]
  rw [List.append_nil]

/-- Claim C6: every access unit handed to the callback — in either
framing mode — is an ordered concatenation of one or more NAL units each
re-prefixed with the canonical 4-byte start code `00 00 00 01`; in
particular it is non-empty and begins with that start code. -/
theorem spec_C6_framed_output :
    (∀ input (u : AccessUnit), u ∈ (avccLoop input asmInit []).1 →
        GoodAU u ∧ u.data ≠ [] ∧ u.data.take 4 = kStartCode) ∧
    (∀ chunks (u : AccessUnit), u ∈ (feedChunks annexBInit chunks).2 →
        GoodAU u ∧ u.data ≠ [] ∧ u.data.take 4 = kStartCode) := by
  constructor
  · intro input u hu
    have hg := avccLoop_good input.length input asmInit [] (Nat.le_refl _)
      ⟨[], rfl⟩ (by intro x hx; simp at hx) u hu
    exact ⟨hg, goodAU_framing u hg⟩
  · intro chunks u hu
    have hg := feedChunks_good chunks annexBInit ⟨[], rfl⟩ u hu
    exact ⟨hg, goodAU_framing u hg⟩

/-- Witness for C6 at a concrete IDR record in each mode. -/
theorem spec_C6_framed_output_witness :
    (GoodAU (⟨[0, 0, 0, 1, 101], true⟩ : AccessUnit) ∧
      (⟨[0, 0, 0, 1, 101], true⟩ : AccessUnit).data ≠ [] ∧
      (⟨[0, 0, 0, 1, 101], true⟩ : AccessUnit).data.take 4 = kStartCode) ∧
    (GoodAU (⟨[0, 0, 0, 1, 101], true⟩ : AccessUnit) ∧
      (⟨[0, 0, 0, 1, 101], true⟩ : AccessUnit).data ≠ [] ∧
      (⟨[0, 0, 0, 1, 101], true⟩ : AccessUnit).data.take 4 = kStartCode) := by
  have h1 : avccLoop [0, 0, 0, 1, 101] asmInit [] =
      ([⟨[0, 0, 0, 1, 101], true⟩], StopReason.ioError) := by
    rw [avccLoop_eq_step 0 0 0 1 [101] asmInit [] (by decide) (by decide)]
    exact avccLoop_short _ _ _ (by decide)
  have hloop : annexBLoop [0, 0, 1, 101, 0, 0, 1, 9] 0 asmInit [] =
      ([0, 0, 1, 9], (⟨[], false⟩ : AsmState),
        [(⟨[0, 0, 0, 1, 101], true⟩ : AccessUnit)]) := by
    rw [annexBLoop_eq_step [0, 0, 1, 101, 0, 0, 1, 9] 0 asmInit [] ⟨0, 3⟩ ⟨4, 3⟩
      (by decide) (by decide) (by decide)]
    dsimp only
    rw [annexBLoop_eq_break [0, 0, 1, 101, 0, 0, 1, 9] 4 _ _ ⟨4, 3⟩
      (by decide) (by decide) (by decide)]
    rfl
  have hfeed : feedChunks annexBInit [[0, 0, 1, 101, 0, 0, 1, 9]] =
      ((⟨[0, 0, 1, 9], ⟨[], false⟩⟩ : AnnexBState),
        [(⟨[0, 0, 0, 1, 101], true⟩ : AccessUnit)]) := by
    rw [feedChunks_singleton]
    unfold processChunk
    dsimp only
    rw [show annexBInit.stream_buf ++ [0, 0, 1, 101, 0, 0, 1, 9] =
          [0, 0, 1, 101, 0, 0, 1, 9] from rfl]
    rw [show annexBInit.asmSt = asmInit from rfl]
    rw [hloop]
  constructor
  · exact spec_C6_framed_output.1 [0, 0, 0, 1, 101] ⟨[0, 0, 0, 1, 101], true⟩
      (by rw [h1]; exact List.mem_singleton.mpr rfl)
  · exact spec_C6_framed_output.2 [[0, 0, 1, 101, 0, 0, 1, 9]]
      ⟨[0, 0, 0, 1, 101], true⟩
      (by rw [hfeed]; exact List.mem_singleton.mpr rfl)

/-- Claim C10: when two start codes are immediately adjacent
(`nal_size = 0`), no NAL unit is produced for the gap: nothing is
appended to the pending access unit, no emission is triggered, and the
parse position resumes at the second start code. -/
theorem spec_C10_adjacent_start_codes (buf : List Nat) (p : Nat)
    (st : AsmState) (outs : List AccessUnit) (sc next_sc : StartCode)
    (h : findStartCode buf p = some sc) (hg : ¬ (p = 0 ∧ 0 < sc.offset))
    (h2 : findStartCode buf (sc.offset + sc.size) = some next_sc)
    (hadj : next_sc.offset = sc.offset + sc.size) :
    annexBLoop buf p st outs = annexBLoop buf next_sc.offset st outs := by
  rw [annexBLoop_eq_step buf p st outs sc next_sc h hg h2]
  dsimp only
  rw [hadj, Nat.sub_self]
  rw [if_neg (by omega : ¬ (0:Nat) < 0)]
  rw [show ((st, (none : Option AccessUnit)).2).toList = [] from rfl]
  rw [List.append_nil]

/-- Witness for C10: in `00 00 01 | 00 00 01 | 65 | 00 00 01 | 09` the
first two codes are adjacent; the step from the first code to the second
changes neither the assembler state nor the outputs. -/
theorem spec_C10_adjacent_start_codes_witness :
    annexBLoop [0, 0, 1, 0, 0, 1, 101, 0, 0, 1, 9] 0 asmInit [] =
      annexBLoop [0, 0, 1, 0, 0, 1, 101, 0, 0, 1, 9] 3 asmInit [] := by
  have h := spec_C10_adjacent_start_codes [0, 0, 1, 0, 0, 1, 101, 0, 0, 1, 9] 0
    asmInit [] ⟨0, 3⟩ ⟨3, 3⟩ (by decide) (by decide) (by decide) (by decide)
  exact h

/-- Counterexample to claim C5: the exact input
`00 00 00 01 <SPS 67 01 02> 00 00 01 <IDR 65 09>` (and end of stream)
yields NO access unit at all — the IDR NAL is held back because a NAL is
only emitted once a further start code is found after it; the claimed
"exactly one access unit" is false. -/
theorem spec_C5_counterexample :
    (annexBWorker annexBInit []
        [[0, 0, 0, 1, 103, 1, 2, 0, 0, 1, 101, 9]]).1 = [] ∧
    (annexBWorker annexBInit []
        [[0, 0, 0, 1, 103, 1, 2, 0, 0, 1, 101, 9]]).1.length ≠ 1 := by
  have hloop : annexBLoop [0, 0, 0, 1, 103, 1, 2, 0, 0, 1, 101, 9] 0 asmInit [] =
      ([0, 0, 1, 101, 9], (⟨[0, 0, 0, 1, 103, 1, 2], false⟩ : AsmState), []) := by
    rw [annexBLoop_eq_step [0, 0, 0, 1, 103, 1, 2, 0, 0, 1, 101, 9] 0 asmInit []
      ⟨0, 4⟩ ⟨7, 3⟩ (by decide) (by decide) (by decide)]
    dsimp only
    rw [annexBLoop_eq_break [0, 0, 0, 1, 103, 1, 2, 0, 0, 1, 101, 9] 7 _ _ ⟨7, 3⟩
      (by decide) (by decide) (by decide)]
    rfl
  have h : (annexBWorker annexBInit []
      [[0, 0, 0, 1, 103, 1, 2, 0, 0, 1, 101, 9]]).1 = [] := by
    rw [annexBWorker_eq [[0, 0, 0, 1, 103, 1, 2, 0, 0, 1, 101, 9]] annexBInit []]
    dsimp only
    rw [List.nil_append]
    rw [feedChunks_singleton]
    unfold processChunk
    dsimp only
    rw [show annexBInit.stream_buf ++ [0, 0, 0, 1, 103, 1, 2, 0, 0, 1, 101, 9] =
          [0, 0, 0, 1, 103, 1, 2, 0, 0, 1, 101, 9] from rfl]
    rw [show annexBInit.asmSt = asmInit from rfl]
    rw [hloop]
  exact ⟨h, by rw [h]; decide⟩

/-- Claim C5 as amended: the same input followed by a further start code
(here `00 00 01` plus one byte) yields exactly one emitted access unit
whose bytes are the SPS and the IDR NAL each re-prefixed with the
canonical 4-byte start code, with `is_keyframe = true`. -/
theorem spec_C5_sps_idr_single_access_unit :
    (annexBWorker annexBInit []
        [[0, 0, 0, 1, 103, 1, 2, 0, 0, 1, 101, 9, 0, 0, 1, 0]]).1 =
      [⟨[0, 0, 0, 1, 103, 1, 2] ++ [0, 0, 0, 1, 101, 9], true⟩] := by
  have hloop : annexBLoop [0, 0, 0, 1, 103, 1, 2, 0, 0, 1, 101, 9, 0, 0, 1, 0] 0
      asmInit [] =
      ([0, 0, 1, 0], (⟨[], false⟩ : AsmState),
        [(⟨[0, 0, 0, 1, 103, 1, 2, 0, 0, 0, 1, 101, 9], true⟩ : AccessUnit)]) := by
    rw [annexBLoop_eq_step [0, 0, 0, 1, 103, 1, 2, 0, 0, 1, 101, 9, 0, 0, 1, 0] 0
      asmInit [] ⟨0, 4⟩ ⟨7, 3⟩ (by decide) (by decide) (by decide)]
    dsimp only
    rw [annexBLoop_eq_step [0, 0, 0, 1, 103, 1, 2, 0, 0, 1, 101, 9, 0, 0, 1, 0] 7
      _ _ ⟨7, 3⟩ ⟨12, 3⟩ (by decide) (by decide) (by decide)]
    dsimp only
    rw [annexBLoop_eq_break [0, 0, 0, 1, 103, 1, 2, 0, 0, 1, 101, 9, 0, 0, 1, 0] 12
      _ _ ⟨12, 3⟩ (by decide) (by decide) (by decide)]
    rfl
  rw [annexBWorker_eq [[0, 0, 0, 1, 103, 1, 2, 0, 0, 1, 101, 9, 0, 0, 1, 0]]
    annexBInit []]
  dsimp only
  rw [List.nil_append]
  rw [feedChunks_singleton]
  unfold processChunk
  dsimp only
  rw [show annexBInit.stream_buf ++
        [0, 0, 0, 1, 103, 1, 2, 0, 0, 1, 101, 9, 0, 0, 1, 0] =
        [0, 0, 0, 1, 103, 1, 2, 0, 0, 1, 101, 9, 0, 0, 1, 0] from rfl]
  rw [show annexBInit.asmSt = asmInit from rfl]
  rw [hloop]
  rfl

/-- The lifecycle model of `H264TcpSource`: the atomic `running_` flag,
how many worker threads were ever spawned, and how far the current
worker has progressed in `loop()`. -/
inductive Phase where
  | notStarted
  | connecting
  | looping
  | finished
deriving DecidableEq, Repr

/-- Observable lifecycle state of one `H264TcpSource` instance. -/
structure LifecycleState where
  running : Bool
  workers : Nat
  phase : Phase
deriving DecidableEq, Repr

/-- A freshly constructed instance: `running_{false}`, no thread. -/
def initLifecycle : LifecycleState := ⟨false, 0, Phase.notStarted⟩

/-- `start()`: `if (running_.exchange(true)) return;` then
`thread_ = std::thread(&H264TcpSource::loop, this);`. -/
def startCall (s : LifecycleState) : LifecycleState :=
  if s.running then s
  else ⟨true, s.workers + 1, Phase.connecting⟩

/-- The worker's first action in `loop()`: `connectTcp`. On failure it
logs, stores `running_ = false` and returns — the parse loop is never
entered. On success it proceeds to the parse loop. -/
def workerConnect (ok : Bool) (s : LifecycleState) : LifecycleState :=
  if ok then ⟨s.running, s.workers, Phase.looping⟩
  else ⟨false, s.workers, Phase.finished⟩

/-- Counterexample to claim C8 as stated: `start()` itself sets
`running_` to true before the worker attempts to connect, so on a
connection that is going to fail there IS a point after `start()` where
`running()` returns true — the window between `start()` and the worker's
failed `connectTcp`. The second conjunct shows the same run then fails
its connect and clears the flag. -/
theorem spec_C8_counterexample :
    (startCall initLifecycle).running = true ∧
    (workerConnect false (startCall initLifecycle)).running = false := by
  constructor
  · rfl
  · rfl

/-- Claim C8 as amended: if address resolution or connect fails, the
worker clears `running_` and finishes without ever entering the parse
loop; after the failed connect step `running()` is false and the phase
is `finished`, never `looping` — the instance does not remain running
and no parsing begins. -/
theorem spec_C8_connect_failure_never_parses (s : LifecycleState)
    (h : s.running = false) :
    (workerConnect false (startCall s)).running = false ∧
    (workerConnect false (startCall s)).phase = Phase.finished ∧
    (workerConnect false (startCall s)).phase ≠ Phase.looping := by
  simp [startCall, workerConnect, h]

/-- Witness for the amended C8 on a fresh instance. -/
theorem spec_C8_connect_failure_never_parses_witness :
    (workerConnect false (startCall initLifecycle)).running = false ∧
    (workerConnect false (startCall initLifecycle)).phase = Phase.finished ∧
    (workerConnect false (startCall initLifecycle)).phase ≠ Phase.looping :=
  spec_C8_connect_failure_never_parses initLifecycle rfl

/-- Claim C9: `start()` is idempotent — if the instance is already
running a further `start()` is a no-op that spawns nothing, and two
consecutive `start()` calls from a fresh instance spawn exactly one
worker thread. -/
theorem spec_C9_start_idempotent :
    (∀ s : LifecycleState, s.running = true → startCall s = s) ∧
    (startCall (startCall initLifecycle)).workers = 1 ∧
    startCall (startCall initLifecycle) = startCall initLifecycle := by
  refine ⟨?_, rfl, rfl⟩
  intro s hs
  simp [startCall, hs]

/-- Witness for C9 on a concrete running state. -/
theorem spec_C9_start_idempotent_witness :
    startCall ⟨true, 1, Phase.connecting⟩ =
      (⟨true, 1, Phase.connecting⟩ : LifecycleState) :=
  spec_C9_start_idempotent.1 ⟨true, 1, Phase.connecting⟩ rfl
